import Mathlib

/-!
Verification development for the organizations-directory service
(activity hierarchy engine and geospatial query translator).

The definitions below are shallow embeddings of the Python source:

* `build_activity_tree` embeds `app/api/activities.py, build_activity_tree`
  (a two-pass imperative algorithm: a dict of nodes keyed by id, then a
  pass appending each node either to the root list or to its parent's
  mutable `children` list).  The mutable object graph is represented by
  the id-keyed dictionary plus an id-keyed children map, and the nested
  forest value is read off by `materialize` (fuel-bounded; the fuel is an
  embedding artifact, `activities.length` suffices on primary-key data).
* `get_activity` embeds `app/api/activities.py, get_activity`.
* `get_activity_descendants` embeds
  `app/api/organizations.py, get_activity_descendants`.
* `create_activity` embeds `app/api/activities.py, create_activity`.
* `resolve_search_mode` / `search_organizations_by_location` embed
  `app/api/organizations.py, search_organizations_by_location` together
  with the `LocationSearch` pydantic schema.
* `create_organization` embeds
  `app/api/organizations.py, create_organization`.

Database rows are lists of records; timestamp bookkeeping columns
(`created_at`, `updated_at`) play no role in any of the verified logic
and are omitted from the records.
-/

/-- Error taxonomy of the HTTP layer: 404, 400 (validation), 400
(integrity/conflict on commit). -/
inductive ApiError where
  | notFound
  | validationError
  | integrityError
deriving DecidableEq, Repr

/-- A row of the `activities` table: id (primary key), unique name,
optional parent reference, nesting level. -/
structure ActivityRec where
  id : Nat
  name : String
  parent_id : Option Nat
  level : Nat
deriving DecidableEq, Repr

/-- The `ActivityWithChildren` response shape: an activity record with a
recursively nested children list. -/
inductive ActivityNode where
  | mk (act : ActivityRec) (children : List ActivityNode)

/-- Record carried by a tree node. -/
def ActivityNode.act : ActivityNode → ActivityRec
  | .mk a _ => a

/-- Children list of a tree node. -/
def ActivityNode.children : ActivityNode → List ActivityNode
  | .mk _ cs => cs

/-- Dictionary update `activity_dict[activity.id] = node`. -/
def dictInsert (d : Nat → Option ActivityRec) (a : ActivityRec) : Nat → Option ActivityRec :=
  fun i => if i = a.id then some a else d i

/-- First pass of `build_activity_tree`: `activity_dict`, a dictionary of
all activities keyed by id (a later entry with the same id overwrites an
earlier one, as with a Python dict). -/
def activityDict (activities : List ActivityRec) : Nat → Option ActivityRec :=
  activities.foldl dictInsert (fun _ => none)

/-- State threaded through the second pass of `build_activity_tree`: the
`root_activities` list and the per-node `children` lists, both holding
node ids (under distinct primary keys a node is identified by its id). -/
structure TreePassState where
  rootIds : List Nat
  childIds : Nat → List Nat

/-- Second pass of `build_activity_tree`: each activity with no parent is
appended to the root list; otherwise, when its `parent_id` is a key of
the dictionary, its id is appended to the parent's children list; an
activity whose parent id is absent from the dictionary is skipped. -/
def passStep (dict : Nat → Option ActivityRec) (s : TreePassState) (a : ActivityRec) :
    TreePassState :=
  match a.parent_id with
  | none => { s with rootIds := s.rootIds ++ [a.id] }
  | some p =>
      if (dict p).isSome then
        { s with childIds := fun i => if i = p then s.childIds p ++ [a.id] else s.childIds i }
      else s

/-- Second pass of `build_activity_tree`, iterated over the input. -/
def treePass (dict : Nat → Option ActivityRec) (activities : List ActivityRec) :
    TreePassState :=
  activities.foldl (passStep dict) ⟨[], fun _ => []⟩

/-- Reading the nested forest value off the mutable object graph built by
the two passes: node `i` is the dictionary entry for `i` together with
the recursively materialized entries of its children list.  The fuel
argument bounds the recursion depth of the embedding; it is not part of
the source algorithm, which returns the aliased object graph directly. -/
def materialize (dict : Nat → Option ActivityRec) (childIds : Nat → List Nat) :
    Nat → Nat → Option ActivityNode
  | 0, i => (dict i).map (fun a => .mk a [])
  | fuel + 1, i =>
      (dict i).map (fun a => .mk a ((childIds i).filterMap (materialize dict childIds fuel)))

/-- `build_activity_tree` with an explicit materialization fuel. -/
def buildTreeWithFuel (activities : List ActivityRec) (fuel : Nat) : List ActivityNode :=
  let dict := activityDict activities
  let st := treePass dict activities
  st.rootIds.filterMap (materialize dict st.childIds fuel)

/-- `build_activity_tree` from `app/api/activities.py`: builds the
dictionary, runs the linking pass, and returns the root nodes with their
nested children (materialized with fuel `activities.length`, which is
enough for any input with distinct ids). -/
def build_activity_tree (activities : List ActivityRec) : List ActivityNode :=
  buildTreeWithFuel activities activities.length

/-- Declarative characterization of a subtree built from a flat record
list: the children of a node are the input records whose `parent_id` is
that node's id, in input order, recursively. -/
def buildSubtree (activities : List ActivityRec) : Nat → ActivityRec → ActivityNode
  | 0, a => .mk a []
  | fuel + 1, a =>
      .mk a ((activities.filter (fun c => c.parent_id == some a.id)).map
        (buildSubtree activities fuel))

/-- Declarative characterization of `build_activity_tree`: the roots are
the input records with no parent, in input order, each carrying its
recursively gathered subtree. -/
def buildForest (activities : List ActivityRec) : List ActivityNode :=
  (activities.filter (fun a => a.parent_id == none)).map
    (buildSubtree activities activities.length)

/-! Forest structure: flattening, the node collection, depth, and
well-formedness of a built forest. -/

mutual

/-- Modelled from the spec: the source has no flattening helper (the
spec's `build_tree_flatten` names none in the code); preorder flattening
of one node back to the flat record list. -/
def flattenNode : ActivityNode → List ActivityRec
  | .mk a cs => a :: flattenForest cs

/-- Modelled from the spec: preorder flattening of a forest back to the
flat record list, node before its children, subtrees in forest order. -/
def flattenForest : List ActivityNode → List ActivityRec
  | [] => []
  | n :: ns => flattenNode n ++ flattenForest ns

end

mutual

/-- Every node of a tree, the tree's own root included, in preorder. -/
def allNodes : ActivityNode → List ActivityNode
  | .mk a cs => .mk a cs :: allNodesForest cs

/-- Every node of a forest, in preorder. -/
def allNodesForest : List ActivityNode → List ActivityNode
  | [] => []
  | n :: ns => allNodes n ++ allNodesForest ns

end

mutual

/-- Height of a tree (a leaf has depth 1). -/
def depthNode : ActivityNode → Nat
  | .mk _ cs => depthForest cs + 1

/-- Height of a forest (an empty forest has depth 0). -/
def depthForest : List ActivityNode → Nat
  | [] => 0
  | n :: ns => max (depthNode n) (depthForest ns)

end

mutual

/-- Parent-consistency of a built tree: the root's `parent_id` equals the
given reference and every child's `parent_id` equals its parent's id,
recursively.  Forests returned by `build_activity_tree` satisfy this with
reference `none`. -/
def wfNode : Option Nat → ActivityNode → Bool
  | pid, .mk a cs => (a.parent_id == pid) && wfForest (some a.id) cs

/-- Parent-consistency of every tree of a forest against one reference. -/
def wfForest : Option Nat → List ActivityNode → Bool
  | _, [] => true
  | pid, n :: ns => wfNode pid n && wfForest pid ns

end

/-! Termination machinery for `build_activity_tree`: on inputs with
distinct ids the materialization fuel `activities.length` is exact, even
when the `parent_id` references contain cycles or self-references (the
cyclic part is unreachable from the returned roots). -/

/-- An upward parent chain: each record's `parent_id` is the id of the
next record, and the last record has no parent. -/
def parentChain : List ActivityRec → Prop
  | [] => True
  | [a] => a.parent_id = none
  | a :: b :: rest => a.parent_id = some b.id ∧ parentChain (b :: rest)

/-! Descendant expansion and the single-activity endpoint. -/

/-- `get_activity_descendants` from `app/api/organizations.py`: the given
id followed by the recursive expansion of each direct child, in child
order.  Each recursive call queries the rows whose `parent_id` is the
current id.  The fuel bounds the recursion depth of the embedding; the
source recursion is bounded by the forest shape of the data. -/
def get_activity_descendants (db : List ActivityRec) : Nat → Nat → List Nat
  | 0, activity_id => [activity_id]
  | fuel + 1, activity_id =>
      activity_id ::
        (db.filter (fun a => a.parent_id == some activity_id)).flatMap
          (fun child => get_activity_descendants db fuel child.id)

/-- Transitive descendant relation of the activity table, graded by the
number of child steps: `DescendantWithin db x d k` holds when `d` is
reachable from `x` by following `k` child links through rows of `db`. -/
inductive DescendantWithin (db : List ActivityRec) : Nat → Nat → Nat → Prop where
  | refl (x : Nat) : DescendantWithin db x x 0
  | step (x d k : Nat) (c : ActivityRec) (hc : c ∈ db) (hp : c.parent_id = some x)
      (h : DescendantWithin db c.id d k) : DescendantWithin db x d (k + 1)

/-- Inner helper `get_all_descendants` of `get_activity` in
`app/api/activities.py`: the direct children followed by the recursive
expansion of each child, as records. -/
def get_all_descendants (db : List ActivityRec) : Nat → Nat → List ActivityRec
  | 0, _ => []
  | fuel + 1, act_id =>
      let children := db.filter (fun a => a.parent_id == some act_id)
      children ++ children.flatMap (fun child => get_all_descendants db fuel child.id)

/-- `get_activity` from `app/api/activities.py`: looks the activity up
(404 when absent), collects it together with all transitive descendants,
applies `build_activity_tree` to that set, and returns the first built
root when one exists, else the bare activity with an empty children
list. -/
def get_activity (db : List ActivityRec) (activity_id : Nat) :
    Except ApiError ActivityNode :=
  match db.find? (fun a => a.id == activity_id) with
  | none => .error .notFound
  | some activity =>
      let all_activities := activity :: get_all_descendants db db.length activity.id
      match build_activity_tree all_activities with
      | t :: _ => .ok t
      | [] => .ok (.mk activity [])

/-! Activity creation. -/

/-- `MAX_ACTIVITY_DEPTH` default from `app/core/config.py`. -/
def MAX_ACTIVITY_DEPTH : Nat := 3

/-- Activities table together with the server-assigned id sequence. -/
structure ActivityDb where
  rows : List ActivityRec
  nextId : Nat
deriving DecidableEq, Repr

/-- Depth check, insert and commit of `create_activity`, entered with the
computed level: HTTP 400 when the level exceeds the configured maximum
(nothing added), an `IntegrityError` rollback when the unique name
constraint fails at commit (session rolled back, table unchanged), else
the persisted row. -/
def create_activity_commit (st : ActivityDb) (maxDepth : Nat) (name : String)
    (parent_id : Option Nat) (level : Nat) : ActivityDb × Except ApiError ActivityRec :=
  if maxDepth < level then
    (st, .error .validationError)
  else if st.rows.any (fun b => b.name == name) then
    (st, .error .integrityError)
  else
    let new_activity : ActivityRec := ⟨st.nextId, name, parent_id, level⟩
    (⟨st.rows ++ [new_activity], st.nextId + 1⟩, .ok new_activity)

/-- `create_activity` from `app/api/activities.py`: with a parent id the
parent is looked up (404 when absent) and the level is the parent's level
plus one, otherwise the level is 1; then the depth check and the commit
run.  The pair carries the table state after the request next to the
response. -/
def create_activity (st : ActivityDb) (maxDepth : Nat) (name : String)
    (parent_id : Option Nat) : ActivityDb × Except ApiError ActivityRec :=
  match parent_id with
  | some pid =>
      match st.rows.find? (fun a => a.id == pid) with
      | none => (st, .error .notFound)
      | some parent => create_activity_commit st maxDepth name parent_id (parent.level + 1)
  | none => create_activity_commit st maxDepth name parent_id 1

/-! Location search. -/

/-- The `LocationSearch` pydantic schema from `app/schemas/schemas.py`.
Coordinates are modelled as rationals; their machine representation is
immaterial to the verified mode-selection and pagination logic. -/
structure LocationSearch where
  latitude : ℚ
  longitude : ℚ
  radius_meters : Option ℚ
  min_latitude : Option ℚ
  max_latitude : Option ℚ
  min_longitude : Option ℚ
  max_longitude : Option ℚ
  limit : Nat
  offset : Nat
deriving DecidableEq, Repr

/-- Field-level validation of the `LocationSearch` schema: coordinate
range bounds on every present field, a strictly positive radius when one
is supplied, and the limit bounds.  The schema has no cross-field
constraint between the minimum and maximum bounds. -/
def LocationSearch.valid (s : LocationSearch) : Bool :=
  decide (-90 ≤ s.latitude) && decide (s.latitude ≤ 90) &&
  decide (-180 ≤ s.longitude) && decide (s.longitude ≤ 180) &&
  s.radius_meters.all (fun r => decide (0 < r)) &&
  s.min_latitude.all (fun v => decide (-90 ≤ v) && decide (v ≤ 90)) &&
  s.max_latitude.all (fun v => decide (-90 ≤ v) && decide (v ≤ 90)) &&
  s.min_longitude.all (fun v => decide (-180 ≤ v) && decide (v ≤ 180)) &&
  s.max_longitude.all (fun v => decide (-180 ≤ v) && decide (v ≤ 180)) &&
  decide (1 ≤ s.limit) && decide (s.limit ≤ 1000)

/-- Resolved search mode: the spatial predicate shape handed to the
store, either spheroidal-distance-within-radius around the center point
or containment in the closed polygon traced from the four bounds. -/
inductive SearchMode where
  | radius (radius_meters : ℚ)
  | bbox (min_longitude min_latitude max_longitude max_latitude : ℚ)
deriving DecidableEq, Repr

/-- Bounding-box branch of `search_organizations_by_location`: taken when
all four bounds are present, otherwise HTTP 400. -/
def resolve_bbox (s : LocationSearch) : Except ApiError SearchMode :=
  match s.min_latitude, s.max_latitude, s.min_longitude, s.max_longitude with
  | some minLat, some maxLat, some minLon, some maxLon =>
      .ok (.bbox minLon minLat maxLon maxLat)
  | _, _, _, _ => .error .validationError

/-- Mode selection of `search_organizations_by_location`: the branch on
`search.radius_meters` uses Python truthiness, so a present radius equal
to zero falls through exactly like an absent one (the schema already
rejects a non-positive radius); otherwise the bounding-box branch runs. -/
def resolve_search_mode (s : LocationSearch) : Except ApiError SearchMode :=
  match s.radius_meters with
  | some r => if r = 0 then resolve_bbox s else .ok (.radius r)
  | none => resolve_bbox s

/-! Organizations. -/

/-- A row of the `buildings` table; the stored PostGIS point is consumed
only through the store-side spatial predicates and is not replicated
here. -/
structure BuildingRec where
  id : Nat
  address : String
deriving DecidableEq, Repr

/-- A row of the `organizations` table. -/
structure OrganizationRec where
  id : Nat
  name : String
  building_id : Nat
deriving DecidableEq, Repr

/-- A row of the `organization_phones` table. -/
structure PhoneRec where
  id : Nat
  organization_id : Nat
  phone_number : String
deriving DecidableEq, Repr

/-- `get_organizations_by_building` from `app/api/organizations.py`: 404
when the building is absent; otherwise the organizations of the building
are counted before pagination and the page is cut with offset then
limit. -/
def get_organizations_by_building (buildings : List BuildingRec)
    (orgs : List OrganizationRec) (building_id limit offset : Nat) :
    Except ApiError (List OrganizationRec × Nat) :=
  match buildings.find? (fun b => b.id == building_id) with
  | none => .error .notFound
  | some _ =>
      let query := orgs.filter (fun o => o.building_id == building_id)
      let total := query.length
      .ok ((query.drop offset).take limit, total)

/-- `search_organizations_by_location` from `app/api/organizations.py`
after schema validation: resolve the search mode (400 when neither mode
is resolvable, before any query runs), filter through the store-evaluated
spatial predicate (PostGIS `ST_DWithin` with spheroid distance, or
`ST_Within` against the polygon; external to this core and abstracted as
the `spatial` parameter), count the matches, then paginate with the
request's offset and limit. -/
def search_organizations_by_location (spatial : SearchMode → OrganizationRec → Bool)
    (orgs : List OrganizationRec) (s : LocationSearch) :
    Except ApiError (List OrganizationRec × Nat) :=
  match resolve_search_mode s with
  | .error e => .error e
  | .ok mode =>
      let query := orgs.filter (spatial mode)
      let total := query.length
      .ok ((query.drop s.offset).take s.limit, total)

/-- The relational store as seen by `create_organization`, with the
server-assigned id sequences. -/
structure Db where
  buildings : List BuildingRec
  activities : List ActivityRec
  organizations : List OrganizationRec
  phones : List PhoneRec
  organization_activity : List (Nat × Nat)
  nextOrgId : Nat
  nextPhoneId : Nat
deriving DecidableEq, Repr

/-- The `OrganizationCreate` request schema. -/
structure OrganizationCreate where
  name : String
  building_id : Nat
  phone_numbers : List String
  activity_ids : List Nat
deriving DecidableEq, Repr

/-- `create_organization` from `app/api/organizations.py`: 404 when the
building is absent; when activity ids were supplied and the rows matching
them are fewer than the request list, 404 naming the missing ids; both
checks run before anything is added, so a failed request leaves every
table unchanged.  On success one organization row, its phone rows and its
activity links are committed together. -/
def create_organization (db : Db) (req : OrganizationCreate) :
    Db × Except ApiError Nat :=
  match db.buildings.find? (fun b => b.id == req.building_id) with
  | none => (db, .error .notFound)
  | some _ =>
      let found := db.activities.filter (fun a => req.activity_ids.contains a.id)
      if !req.activity_ids.isEmpty && found.length != req.activity_ids.length then
        (db, .error .notFound)
      else
        let orgId := db.nextOrgId
        let new_organization : OrganizationRec := ⟨orgId, req.name, req.building_id⟩
        let newPhones := (req.phone_numbers.zip (List.range req.phone_numbers.length)).map
          (fun pi => PhoneRec.mk (db.nextPhoneId + pi.2) orgId pi.1)
        let newLinks := found.map (fun a => (orgId, a.id))
        ({ db with
            organizations := db.organizations ++ [new_organization],
            phones := db.phones ++ newPhones,
            organization_activity := db.organization_activity ++ newLinks,
            nextOrgId := orgId + 1,
            nextPhoneId := db.nextPhoneId + newPhones.length },
          .ok orgId)

/-- Root condition asserted by the specification for `build_tree`: the
record's `parent_id` is absent, or names an id carried by no record of
the input set. -/
def specClaimedRoot (acts : List ActivityRec) (a : ActivityRec) : Prop :=
  a.parent_id = none ∨ ∀ p, a.parent_id = some p → ∀ b ∈ acts, b.id ≠ p

/-- Orphan record whose parent id 1 is not in the input set. -/
def orphanRec : ActivityRec := ⟨2, "orphan", some 1, 2⟩

/-- Concrete two-level forest used to witness the round trip. -/
def sampleForest : List ActivityNode :=
  [.mk ⟨1, "Food", none, 1⟩
      [.mk ⟨2, "Meat", some 1, 2⟩ [], .mk ⟨3, "Fish", some 1, 2⟩ []],
    .mk ⟨4, "Services", none, 1⟩ []]

/-- Input whose two non-root records reference each other in a parent
cycle; ids are distinct, as for primary-key rows. -/
def cyclicActs : List ActivityRec :=
  [⟨1, "root", none, 1⟩, ⟨2, "a", some 3, 2⟩, ⟨3, "b", some 2, 3⟩]

/-- Three-level chain Food(1) → Meat(2) → Beef(3) used to exhibit the
subtree endpoint's behaviour on a non-root activity. -/
def c2Db : List ActivityRec :=
  [⟨1, "Food", none, 1⟩, ⟨2, "Meat", some 1, 2⟩, ⟨3, "Beef", some 2, 3⟩]

/-- Table of the depth scenario: Food at level 1, Meat at level 2, Beef
at level 3, with the id sequence at 4. -/
def c4Db : ActivityDb :=
  ⟨[⟨1, "Food", none, 1⟩, ⟨2, "Meat", some 1, 2⟩, ⟨3, "Beef", some 2, 3⟩], 4⟩

/-- Radius request that also carries a partial set of bounds. -/
def radiusSearch : LocationSearch := ⟨10, 20, some 500, none, none, some 1, none, 100, 0⟩

/-- Bounding-box request with all four bounds. -/
def bboxSearch : LocationSearch := ⟨0, 0, none, some 40, some 50, some 10, some 20, 100, 0⟩

/-- Request with neither a radius nor a complete set of bounds. -/
def partialSearch : LocationSearch := ⟨0, 0, none, some 40, none, some 10, none, 100, 0⟩

/-- Bounding-box request whose latitude bounds are inverted
(minimum 50 above maximum 40). -/
def invertedSearch : LocationSearch := ⟨0, 0, none, some 50, some 40, some 10, some 20, 10, 0⟩

/-- Directory used to witness pagination: one building, two of three
organizations inside it. -/
def c6Buildings : List BuildingRec := [⟨1, "Main St 1"⟩]

/-- Organizations for the pagination witness. -/
def c6Orgs : List OrganizationRec := [⟨1, "A", 1⟩, ⟨2, "B", 1⟩, ⟨3, "C", 2⟩]

/-- Store for the all-or-nothing witness: one building, activities 1 and
2, nothing else. -/
def c7Db : Db :=
  ⟨[⟨1, "Main St 1"⟩], [⟨1, "Food", none, 1⟩, ⟨2, "Meat", some 1, 2⟩], [], [], [], 1, 1⟩

/-- Creation request referencing the missing activity id 999. -/
def c7Req : OrganizationCreate := ⟨"Acme", 1, ["123-456"], [1, 2, 999]⟩

/-! Bridging lemmas: on inputs with distinct ids (database primary keys)
the two-pass imperative algorithm agrees with the declarative
characterization `buildForest`. -/

theorem foldl_dictInsert_untouched (acts : List ActivityRec)
    (init : Nat → Option ActivityRec) (i : Nat) (h : ∀ a ∈ acts, a.id ≠ i) :
    acts.foldl dictInsert init i = init i := by
  induction acts generalizing init with
  | nil => rfl
  | cons x rest ih =>
      have hx : x.id ≠ i := h x (List.mem_cons_self x rest)
      have hrest : ∀ a ∈ rest, a.id ≠ i := fun a ha => h a (List.mem_cons_of_mem x ha)
      simp only [List.foldl_cons]
      rw [ih (dictInsert init x) hrest]
      simp [dictInsert, Ne.symm hx]

theorem activityDict_mem_aux (acts : List ActivityRec)
    (hnd : (acts.map (fun a => a.id)).Nodup) (a : ActivityRec) (ha : a ∈ acts)
    (init : Nat → Option ActivityRec) :
    acts.foldl dictInsert init a.id = some a := by
  induction acts generalizing init with
  | nil => exact absurd ha (List.not_mem_nil a)
  | cons x rest ih =>
      simp only [List.map_cons, List.nodup_cons] at hnd
      rcases List.mem_cons.mp ha with h | h
      · subst h
        simp only [List.foldl_cons]
        rw [foldl_dictInsert_untouched rest (dictInsert init a) a.id]
        · simp [dictInsert]
        · intro b hb hbid
          exact hnd.1 (hbid ▸ List.mem_map_of_mem (fun a => a.id) hb)
      · simp only [List.foldl_cons]
        exact ih hnd.2 h (dictInsert init x)

theorem activityDict_eq (acts : List ActivityRec)
    (hnd : (acts.map (fun a => a.id)).Nodup) (a : ActivityRec) (ha : a ∈ acts) :
    activityDict acts a.id = some a :=
  activityDict_mem_aux acts hnd a ha _

theorem foldl_passStep_rootIds (d : Nat → Option ActivityRec)
    (acts : List ActivityRec) (s : TreePassState) :
    (acts.foldl (passStep d) s).rootIds =
      s.rootIds ++ (acts.filter (fun a => a.parent_id == none)).map (fun a => a.id) := by
  induction acts generalizing s with
  | nil => simp
  | cons x rest ih =>
      simp only [List.foldl_cons, List.filter_cons]
      cases hx : x.parent_id with
      | none =>
          rw [ih]
          simp [passStep, hx]
      | some p =>
          rw [ih]
          have h1 : (passStep d s x).rootIds = s.rootIds := by
            simp only [passStep, hx]
            split <;> rfl
          rw [h1]
          simp [hx]

theorem foldl_passStep_childIds (d : Nat → Option ActivityRec)
    (acts : List ActivityRec) (s : TreePassState) (i : Nat) :
    (acts.foldl (passStep d) s).childIds i =
      s.childIds i ++
        (if (d i).isSome then
          (acts.filter (fun a => a.parent_id == some i)).map (fun a => a.id)
        else []) := by
  induction acts generalizing s with
  | nil => simp
  | cons x rest ih =>
      simp only [List.foldl_cons, List.filter_cons]
      rw [ih]
      cases hx : x.parent_id with
      | none =>
          have h1 : (passStep d s x).childIds = s.childIds := by
            simp only [passStep, hx]
          rw [h1]
          simp [hx]
      | some p =>
          by_cases hp : (d p).isSome
          · have h1 : (passStep d s x).childIds i =
                if i = p then s.childIds p ++ [x.id] else s.childIds i := by
              simp only [passStep, hx, if_pos hp]
            rw [h1]
            by_cases hip : i = p
            · subst hip
              simp only [if_pos rfl, if_pos hp]
              have : (x.parent_id == some i) = true := by simp [hx]
              simp [this, hp]
            · simp only [if_neg hip]
              simp [hx, Ne.symm hip]
          · have h1 : (passStep d s x).childIds i = s.childIds i := by
              simp only [passStep, hx, if_neg hp]
            rw [h1]
            by_cases hip : i = p
            · subst hip
              simp [hp]
            · simp [hx, Ne.symm hip]

theorem treePass_rootIds (d : Nat → Option ActivityRec) (acts : List ActivityRec) :
    (treePass d acts).rootIds =
      (acts.filter (fun a => a.parent_id == none)).map (fun a => a.id) := by
  simpa [treePass] using foldl_passStep_rootIds d acts ⟨[], fun _ => []⟩

theorem treePass_childIds (d : Nat → Option ActivityRec) (acts : List ActivityRec)
    (i : Nat) (hi : (d i).isSome) :
    (treePass d acts).childIds i =
      (acts.filter (fun a => a.parent_id == some i)).map (fun a => a.id) := by
  simpa [treePass, hi] using foldl_passStep_childIds d acts ⟨[], fun _ => []⟩ i

theorem filterMap_congr_map {α γ : Type} (l : List α)
    (g : α → Option γ) (f : α → γ) (h : ∀ x ∈ l, g x = some (f x)) :
    l.filterMap g = l.map f := by
  induction l with
  | nil => rfl
  | cons x rest ih =>
      rw [List.filterMap_cons, h x (List.mem_cons_self x rest), List.map_cons,
        ih (fun y hy => h y (List.mem_cons_of_mem x hy))]

theorem materialize_eq_buildSubtree (acts : List ActivityRec)
    (hnd : (acts.map (fun a => a.id)).Nodup) (fuel : Nat) (a : ActivityRec)
    (ha : a ∈ acts) :
    materialize (activityDict acts) (treePass (activityDict acts) acts).childIds fuel a.id
      = some (buildSubtree acts fuel a) := by
  induction fuel generalizing a with
  | zero =>
      rw [materialize, activityDict_eq acts hnd a ha]
      rfl
  | succ fuel ih =>
      rw [materialize, activityDict_eq acts hnd a ha]
      have hsome : ((activityDict acts) a.id).isSome := by
        rw [activityDict_eq acts hnd a ha]; rfl
      rw [treePass_childIds (activityDict acts) acts a.id hsome]
      simp only [Option.map_some']
      rw [buildSubtree]
      have hmap :
          ((acts.filter (fun c => c.parent_id == some a.id)).map (fun c => c.id)).filterMap
              (materialize (activityDict acts) (treePass (activityDict acts) acts).childIds fuel)
            = (acts.filter (fun c => c.parent_id == some a.id)).map
                (buildSubtree acts fuel) := by
        rw [List.filterMap_map]
        apply filterMap_congr_map
        intro c hc
        exact ih c (List.mem_of_mem_filter hc)
      rw [hmap]

theorem buildTreeWithFuel_eq (acts : List ActivityRec)
    (hnd : (acts.map (fun a => a.id)).Nodup) (fuel : Nat) :
    buildTreeWithFuel acts fuel =
      (acts.filter (fun a => a.parent_id == none)).map (buildSubtree acts fuel) := by
  have hdef : buildTreeWithFuel acts fuel =
      (treePass (activityDict acts) acts).rootIds.filterMap
        (materialize (activityDict acts) (treePass (activityDict acts) acts).childIds fuel) := rfl
  rw [hdef, treePass_rootIds, List.filterMap_map]
  apply filterMap_congr_map
  intro a ha
  exact materialize_eq_buildSubtree acts hnd fuel a (List.mem_of_mem_filter ha)

theorem build_activity_tree_eq_buildForest (acts : List ActivityRec)
    (hnd : (acts.map (fun a => a.id)).Nodup) :
    build_activity_tree acts = buildForest acts :=
  buildTreeWithFuel_eq acts hnd acts.length

theorem node_forest_induction
    (P : ActivityNode → Prop) (Q : List ActivityNode → Prop)
    (hmk : ∀ a cs, Q cs → P (.mk a cs))
    (hnil : Q [])
    (hcons : ∀ n ns, P n → Q ns → Q (n :: ns)) :
    ∀ F, Q F
  | [] => hnil
  | ActivityNode.mk a cs :: ns =>
      hcons (.mk a cs) ns
        (hmk a cs (node_forest_induction P Q hmk hnil hcons cs))
        (node_forest_induction P Q hmk hnil hcons ns)

theorem self_mem_allNodes (n : ActivityNode) : n ∈ allNodes n := by
  cases n with
  | mk a cs => simp [allNodes]

theorem mem_allNodesForest_of_mem {F : List ActivityNode} {n : ActivityNode}
    (h : n ∈ F) : n ∈ allNodesForest F := by
  induction F with
  | nil => exact absurd h (List.not_mem_nil n)
  | cons m ms ih =>
      rw [allNodesForest]
      rcases List.mem_cons.mp h with h | h
      · subst h
        exact List.mem_append_left _ (self_mem_allNodes n)
      · exact List.mem_append_right _ (ih h)

theorem allNodes_trans :
    ∀ F : List ActivityNode, ∀ m ∈ allNodesForest F, ∀ x ∈ allNodes m,
      x ∈ allNodesForest F := by
  refine node_forest_induction
    (fun n => ∀ m ∈ allNodes n, ∀ x ∈ allNodes m, x ∈ allNodes n)
    (fun F => ∀ m ∈ allNodesForest F, ∀ x ∈ allNodes m, x ∈ allNodesForest F)
    ?_ ?_ ?_
  · intro a cs ih m hm x hx
    rw [allNodes] at hm ⊢
    rcases List.mem_cons.mp hm with h | h
    · subst h
      rw [allNodes] at hx
      exact hx
    · exact List.mem_cons_of_mem _ (ih m h x hx)
  · intro m hm
    exact absurd hm (List.not_mem_nil m)
  · intro n ns ihn ihns m hm x hx
    rw [allNodesForest] at hm ⊢
    rcases List.mem_append.mp hm with h | h
    · exact List.mem_append_left _ (ihn m h x hx)
    · exact List.mem_append_right _ (ihns m h x hx)

theorem flattenForest_eq_allNodes_map :
    ∀ F : List ActivityNode,
      flattenForest F = (allNodesForest F).map ActivityNode.act := by
  refine node_forest_induction
    (fun n => flattenNode n = (allNodes n).map ActivityNode.act)
    (fun F => flattenForest F = (allNodesForest F).map ActivityNode.act)
    ?_ ?_ ?_
  · intro a cs ih
    rw [flattenNode, allNodes, List.map_cons, ih]
    rfl
  · rfl
  · intro n ns ihn ihns
    rw [flattenForest, allNodesForest, List.map_append, ihn, ihns]

theorem map_act_sublist_flattenForest (F : List ActivityNode) :
    (F.map ActivityNode.act).Sublist (flattenForest F) := by
  induction F with
  | nil => exact List.Sublist.refl []
  | cons n ns ih =>
      cases n with
      | mk a cs =>
          rw [List.map_cons, flattenForest, flattenNode]
          rw [List.cons_append]
          exact List.Sublist.cons₂ _
            (ih.trans (List.sublist_append_right (flattenForest cs) (flattenForest ns))
              |>.trans (List.Sublist.refl _))



theorem flattenNode_sublist_of_mem :
    ∀ F : List ActivityNode, ∀ m ∈ allNodesForest F,
      (flattenNode m).Sublist (flattenForest F) := by
  refine node_forest_induction
    (fun n => ∀ m ∈ allNodes n, (flattenNode m).Sublist (flattenNode n))
    (fun F => ∀ m ∈ allNodesForest F, (flattenNode m).Sublist (flattenForest F))
    ?_ ?_ ?_
  · intro a cs ih m hm
    rw [allNodes] at hm
    rcases List.mem_cons.mp hm with h | h
    · subst h
      exact List.Sublist.refl _
    · rw [flattenNode]
      exact (ih m h).trans (List.sublist_cons_self a (flattenForest cs))
  · intro m hm
    exact absurd hm (List.not_mem_nil m)
  · intro n ns ihn ihns m hm
    rw [allNodesForest] at hm
    rw [flattenForest]
    rcases List.mem_append.mp hm with h | h
    · exact (ihn m h).trans (List.sublist_append_left _ _)
    · exact (ihns m h).trans (List.sublist_append_right _ _)

theorem flatten_origin :
    ∀ F : List ActivityNode, ∀ x ∈ flattenForest F,
      (∃ n ∈ F, x = n.act) ∨
        ∃ m ∈ allNodesForest F, ∃ c ∈ m.children, x = c.act := by
  refine node_forest_induction
    (fun n => ∀ x ∈ flattenNode n,
      x = n.act ∨ ∃ m ∈ allNodes n, ∃ c ∈ m.children, x = c.act)
    (fun F => ∀ x ∈ flattenForest F,
      (∃ n ∈ F, x = n.act) ∨ ∃ m ∈ allNodesForest F, ∃ c ∈ m.children, x = c.act)
    ?_ ?_ ?_
  · intro a cs ih x hx
    rw [flattenNode] at hx
    rcases List.mem_cons.mp hx with h | h
    · exact Or.inl h
    · rcases ih x h with ⟨n, hn, hxn⟩ | ⟨m, hm, c, hc, hxc⟩
      · refine Or.inr ⟨.mk a cs, self_mem_allNodes _, n, ?_, hxn⟩
        exact hn
      · exact Or.inr ⟨m, by rw [allNodes]; exact List.mem_cons_of_mem _ hm, c, hc, hxc⟩
  · intro x hx
    exact absurd hx (List.not_mem_nil x)
  · intro n ns ihn ihns x hx
    rw [flattenForest] at hx
    rcases List.mem_append.mp hx with h | h
    · rcases ihn x h with h | ⟨m, hm, c, hc, hxc⟩
      · exact Or.inl ⟨n, List.mem_cons_self n ns, h⟩
      · refine Or.inr ⟨m, ?_, c, hc, hxc⟩
        rw [allNodesForest]
        exact List.mem_append_left _ hm
    · rcases ihns x h with ⟨n', hn', hxn'⟩ | ⟨m, hm, c, hc, hxc⟩
      · exact Or.inl ⟨n', List.mem_cons_of_mem n hn', hxn'⟩
      · refine Or.inr ⟨m, ?_, c, hc, hxc⟩
        rw [allNodesForest]
        exact List.mem_append_right _ hm

theorem wfNode_act_parent {pid : Option Nat} {n : ActivityNode}
    (h : wfNode pid n = true) : n.act.parent_id = pid := by
  cases n with
  | mk a cs =>
      rw [wfNode, Bool.and_eq_true] at h
      exact eq_of_beq h.1

theorem wfNode_children {pid : Option Nat} {n : ActivityNode}
    (h : wfNode pid n = true) : wfForest (some n.act.id) n.children = true := by
  cases n with
  | mk a cs =>
      rw [wfNode, Bool.and_eq_true] at h
      exact h.2

theorem wfForest_mem {pid : Option Nat} :
    ∀ {F : List ActivityNode}, wfForest pid F = true → ∀ n ∈ F, wfNode pid n = true := by
  intro F
  induction F with
  | nil => intro _ n hn; exact absurd hn (List.not_mem_nil n)
  | cons m ms ih =>
      intro h n hn
      rw [wfForest, Bool.and_eq_true] at h
      rcases List.mem_cons.mp hn with hh | hh
      · subst hh; exact h.1
      · exact ih h.2 n hh

theorem wf_children_parent :
    ∀ F : List ActivityNode, ∀ pid, wfForest pid F = true →
      ∀ m ∈ allNodesForest F, ∀ c ∈ m.children, c.act.parent_id = some m.act.id := by
  refine node_forest_induction
    (fun n => ∀ pid, wfNode pid n = true →
      ∀ m ∈ allNodes n, ∀ c ∈ m.children, c.act.parent_id = some m.act.id)
    (fun F => ∀ pid, wfForest pid F = true →
      ∀ m ∈ allNodesForest F, ∀ c ∈ m.children, c.act.parent_id = some m.act.id)
    ?_ ?_ ?_
  · intro a cs ih pid hwf m hm c hc
    rw [allNodes] at hm
    rcases List.mem_cons.mp hm with h | h
    · subst h
      have hcs := wfNode_children hwf
      have := wfForest_mem hcs c hc
      exact wfNode_act_parent this
    · exact ih (some a.id) (wfNode_children hwf) m h c hc
  · intro pid _ m hm
    exact absurd hm (List.not_mem_nil m)
  · intro n ns ihn ihns pid hwf m hm c hc
    rw [wfForest, Bool.and_eq_true] at hwf
    rw [allNodesForest] at hm
    rcases List.mem_append.mp hm with h | h
    · exact ihn pid hwf.1 m h c hc
    · exact ihns pid hwf.2 m h c hc

theorem filter_eq_of_sublist {α : Type} [DecidableEq α] {l s : List α} {p : α → Bool}
    (hs : s.Sublist l) (hp : ∀ x ∈ s, p x = true) (hc : ∀ x ∈ l, p x = true → x ∈ s)
    (hnd : l.Nodup) : l.filter p = s := by
  have h1 : s.filter p = s := List.filter_eq_self.mpr hp
  have h2 : s.Sublist (l.filter p) := by
    have := hs.filter p
    rwa [h1] at this
  have h3 : l.filter p ⊆ s := fun x hx =>
    hc x (List.mem_of_mem_filter hx) (List.of_mem_filter hx)
  have h4 : (l.filter p).Nodup := hnd.filter p
  have h5 : (l.filter p).length ≤ s.length := by
    have hsub : (l.filter p).toFinset ⊆ s.toFinset := by
      intro x hx
      simp only [List.mem_toFinset] at hx ⊢
      exact h3 hx
    calc (l.filter p).length = (l.filter p).toFinset.card :=
          (List.toFinset_card_of_nodup h4).symm
      _ ≤ s.toFinset.card := Finset.card_le_card hsub
      _ ≤ s.length := List.toFinset_card_le s
  have h6 : s.length = (l.filter p).length :=
    le_antisymm h2.length_le h5
  exact (h2.eq_of_length h6).symm

theorem flatten_id_nodup_allNodes (F : List ActivityNode)
    (hnd : ((flattenForest F).map (fun a => a.id)).Nodup) :
    ((allNodesForest F).map (fun m => m.act.id)).Nodup := by
  rw [flattenForest_eq_allNodes_map, List.map_map] at hnd
  exact hnd

theorem flatten_roots (F : List ActivityNode) (hwf : wfForest none F = true)
    (hnd : ((flattenForest F).map (fun a => a.id)).Nodup) :
    (flattenForest F).filter (fun a => a.parent_id == none) =
      F.map ActivityNode.act := by
  apply filter_eq_of_sublist (map_act_sublist_flattenForest F)
  · intro x hx
    rcases List.mem_map.mp hx with ⟨n, hn, hxn⟩
    have := wfNode_act_parent (wfForest_mem hwf n hn)
    subst hxn
    simp [this]
  · intro x hx hpx
    rcases flatten_origin F x hx with ⟨n, hn, hxn⟩ | ⟨m, hm, c, hc, hxc⟩
    · exact hxn ▸ List.mem_map_of_mem ActivityNode.act hn
    · have := wf_children_parent F none hwf m hm c hc
      rw [hxc] at hpx
      rw [this] at hpx
      exact absurd hpx (by simp)
  · exact List.Nodup.of_map _ hnd

theorem children_mem_allNodes {m c : ActivityNode} (hc : c ∈ m.children) :
    c ∈ allNodes m := by
  cases m with
  | mk a cs =>
      rw [allNodes]
      exact List.mem_cons_of_mem _ (mem_allNodesForest_of_mem hc)

theorem flatten_children (F : List ActivityNode) (hwf : wfForest none F = true)
    (hnd : ((flattenForest F).map (fun a => a.id)).Nodup)
    (m : ActivityNode) (hm : m ∈ allNodesForest F) :
    (flattenForest F).filter (fun c => c.parent_id == some m.act.id) =
      m.children.map ActivityNode.act := by
  have hsub : (m.children.map ActivityNode.act).Sublist (flattenForest F) := by
    have h1 : (m.children.map ActivityNode.act).Sublist (flattenNode m) := by
      cases m with
      | mk a cs =>
          rw [flattenNode]
          exact (map_act_sublist_flattenForest cs).trans
            (List.sublist_cons_self a (flattenForest cs))
    exact h1.trans (flattenNode_sublist_of_mem F m hm)
  apply filter_eq_of_sublist hsub
  · intro x hx
    rcases List.mem_map.mp hx with ⟨c, hc, hxc⟩
    have := wf_children_parent F none hwf m hm c hc
    subst hxc
    simp [this]
  · intro x hx hpx
    rcases flatten_origin F x hx with ⟨n, hn, hxn⟩ | ⟨q, hq, c, hc, hxc⟩
    · have := wfNode_act_parent (wfForest_mem hwf n hn)
      rw [hxn, this] at hpx
      exact absurd hpx (by simp)
    · have hcp := wf_children_parent F none hwf q hq c hc
      rw [hxc, hcp] at hpx
      have hqid : q.act.id = m.act.id := by simpa using hpx
      have hqm : q = m :=
        List.inj_on_of_nodup_map (flatten_id_nodup_allNodes F hnd) hq hm hqid
      subst hqm
      exact hxc ▸ List.mem_map_of_mem ActivityNode.act hc
  · exact List.Nodup.of_map _ hnd

theorem depthNode_pos (n : ActivityNode) : 1 ≤ depthNode n := by
  cases n with
  | mk a cs =>
      rw [depthNode]
      exact Nat.le_add_left 1 (depthForest cs)

theorem depthNode_le_depthForest {c : ActivityNode} :
    ∀ {cs : List ActivityNode}, c ∈ cs → depthNode c ≤ depthForest cs := by
  intro cs
  induction cs with
  | nil => intro h; exact absurd h (List.not_mem_nil c)
  | cons n ns ih =>
      intro h
      rw [depthForest]
      rcases List.mem_cons.mp h with h | h
      · subst h; exact Nat.le_max_left _ _
      · exact le_trans (ih h) (Nat.le_max_right _ _)

theorem depthNode_le_flatten_length :
    ∀ F : List ActivityNode, depthForest F ≤ (flattenForest F).length := by
  refine node_forest_induction
    (fun n => depthNode n ≤ (flattenNode n).length)
    (fun F => depthForest F ≤ (flattenForest F).length)
    ?_ ?_ ?_
  · intro a cs ih
    rw [depthNode, flattenNode, List.length_cons]
    exact Nat.add_le_add_right ih 1
  · exact Nat.le_refl 0
  · intro n ns ihn ihns
    rw [depthForest, flattenForest, List.length_append]
    exact max_le (le_trans ihn (Nat.le_add_right _ _))
      (le_trans ihns (Nat.le_add_left _ _))

theorem depthNode_le_flattenNode_length (n : ActivityNode) :
    depthNode n ≤ (flattenNode n).length := by
  cases n with
  | mk a cs =>
      rw [depthNode, flattenNode, List.length_cons]
      exact Nat.add_le_add_right (depthNode_le_flatten_length cs) 1

theorem buildSubtree_reconstruct (F : List ActivityNode)
    (hwf : wfForest none F = true)
    (hnd : ((flattenForest F).map (fun a => a.id)).Nodup) :
    ∀ fuel m, m ∈ allNodesForest F → depthNode m ≤ fuel →
      buildSubtree (flattenForest F) fuel m.act = m := by
  intro fuel
  induction fuel with
  | zero =>
      intro m _ hd
      exact absurd (le_trans (depthNode_pos m) hd) (by simp)
  | succ fuel ih =>
      intro m hm hd
      rw [buildSubtree, flatten_children F hwf hnd m hm, List.map_map]
      have hchild : ∀ c ∈ m.children,
          buildSubtree (flattenForest F) fuel (ActivityNode.act c) = c := by
        intro c hc
        apply ih c (allNodes_trans F m hm c (children_mem_allNodes hc))
        have h1 : depthNode c ≤ depthForest m.children := depthNode_le_depthForest hc
        have h2 : depthForest m.children + 1 ≤ fuel + 1 := by
          cases m with
          | mk a cs => rw [depthNode] at hd; exact hd
        exact le_trans h1 (Nat.le_of_succ_le_succ h2)
      have hmap : m.children.map (buildSubtree (flattenForest F) fuel ∘ ActivityNode.act)
          = m.children := by
        calc m.children.map (buildSubtree (flattenForest F) fuel ∘ ActivityNode.act)
            = m.children.map id := List.map_congr_left (fun c hc => hchild c hc)
          _ = m.children := List.map_id m.children
      rw [hmap]
      cases m with
      | mk a cs => rfl

theorem build_flatten_roundtrip (F : List ActivityNode)
    (hwf : wfForest none F = true)
    (hnd : ((flattenForest F).map (fun a => a.id)).Nodup) :
    build_activity_tree (flattenForest F) = F := by
  rw [build_activity_tree_eq_buildForest _ hnd]
  unfold buildForest
  rw [flatten_roots F hwf hnd, List.map_map]
  calc F.map (buildSubtree (flattenForest F) (flattenForest F).length ∘ ActivityNode.act)
      = F.map id := by
        apply List.map_congr_left
        intro n hn
        have hmem : n ∈ allNodesForest F := mem_allNodesForest_of_mem hn
        have hdep : depthNode n ≤ (flattenForest F).length :=
          le_trans (depthNode_le_flattenNode_length n)
            (flattenNode_sublist_of_mem F n hmem).length_le
        exact buildSubtree_reconstruct F hwf hnd (flattenForest F).length n hmem hdep
    _ = F := List.map_id F

theorem parentChain_tail {a : ActivityRec} {ch : List ActivityRec}
    (h : parentChain (a :: ch)) : parentChain ch := by
  cases ch with
  | nil => trivial
  | cons b rest => exact h.2

theorem parentChain_suffix (l1 : List ActivityRec) {l2 : List ActivityRec}
    (h : parentChain (l1 ++ l2)) : parentChain l2 := by
  induction l1 with
  | nil => exact h
  | cons x l1' ih => exact ih (parentChain_tail h)

theorem parentChain_unique (acts : List ActivityRec)
    (hnd : (acts.map (fun a => a.id)).Nodup) :
    ∀ ch ch' (a : ActivityRec), (∀ x ∈ ch, x ∈ acts) → (∀ x ∈ ch', x ∈ acts) →
      parentChain (a :: ch) → parentChain (a :: ch') → ch = ch' := by
  intro ch
  induction ch with
  | nil =>
      intro ch' a _ _ h h'
      cases ch' with
      | nil => rfl
      | cons b' rest' =>
          have h1 : a.parent_id = none := h
          have h2 : a.parent_id = some b'.id := h'.1
          rw [h1] at h2
          exact absurd h2 (by simp)
  | cons b rest ih =>
      intro ch' a hch hch' h h'
      cases ch' with
      | nil =>
          have h1 : a.parent_id = none := h'
          have h2 : a.parent_id = some b.id := h.1
          rw [h1] at h2
          exact absurd h2.symm (by simp)
      | cons b' rest' =>
          have hb : b ∈ acts := hch b (List.mem_cons_self b rest)
          have hb' : b' ∈ acts := hch' b' (List.mem_cons_self b' rest')
          have hid : b.id = b'.id := by
            have h1 : a.parent_id = some b.id := h.1
            have h2 : a.parent_id = some b'.id := h'.1
            rw [h1] at h2
            exact Option.some.inj h2
          have hbb : b = b' := List.inj_on_of_nodup_map hnd hb hb' hid
          subst hbb
          have := ih rest' b (fun x hx => hch x (List.mem_cons_of_mem b hx))
            (fun x hx => hch' x (List.mem_cons_of_mem b hx)) h.2 h'.2
          rw [this]

theorem parentChain_nodup (acts : List ActivityRec)
    (hnd : (acts.map (fun a => a.id)).Nodup) :
    ∀ ch, (∀ x ∈ ch, x ∈ acts) → parentChain ch → ch.Nodup := by
  intro ch
  induction ch with
  | nil => intro _ _; exact List.nodup_nil
  | cons a rest ih =>
      intro hmem h
      rw [List.nodup_cons]
      refine ⟨?_, ih (fun x hx => hmem x (List.mem_cons_of_mem a hx)) (parentChain_tail h)⟩
      intro hara
      rcases List.append_of_mem hara with ⟨s, t, hrest⟩
      have hsuff : parentChain (a :: t) := by
        have : a :: rest = (a :: s) ++ a :: t := by rw [hrest]; rfl
        rw [this] at h
        exact parentChain_suffix (a :: s) h
      have hresteq : rest = t :=
        parentChain_unique acts hnd rest t a
          (fun x hx => hmem x (List.mem_cons_of_mem a hx))
          (fun x hx => hmem x (List.mem_cons_of_mem a (hrest ▸ List.mem_append_right s (List.mem_cons_of_mem a hx))))
          h hsuff
      have : rest.length = s.length + t.length + 1 := by
        rw [hrest]
        simp [List.length_append]
        omega
      rw [hresteq] at this
      omega

theorem length_le_of_nodup_subset {α : Type} [DecidableEq α] {l s : List α}
    (hnd : l.Nodup) (h : l ⊆ s) : l.length ≤ s.length := by
  have hsub : l.toFinset ⊆ s.toFinset := by
    intro x hx
    simp only [List.mem_toFinset] at hx ⊢
    exact h hx
  calc l.length = l.toFinset.card := (List.toFinset_card_of_nodup hnd).symm
    _ ≤ s.toFinset.card := Finset.card_le_card hsub
    _ ≤ s.length := List.toFinset_card_le s

theorem buildSubtree_of_no_children {acts : List ActivityRec} {a : ActivityRec}
    (h : acts.filter (fun c => c.parent_id == some a.id) = []) :
    ∀ f, buildSubtree acts f a = .mk a [] := by
  intro f
  cases f with
  | zero => rfl
  | succ fp => rw [buildSubtree, h]; rfl

theorem buildSubtree_fuel_stable (acts : List ActivityRec)
    (hnd : (acts.map (fun a => a.id)).Nodup) :
    ∀ n (ch : List ActivityRec) (a : ActivityRec), a ∈ acts →
      (∀ x ∈ ch, x ∈ acts) → parentChain (a :: ch) →
      acts.length ≤ (a :: ch).length + n →
      ∀ f g, n ≤ f → n ≤ g → buildSubtree acts f a = buildSubtree acts g a := by
  intro n
  induction n with
  | zero =>
      intro ch a ha hch hchain hlen f g _ _
      have hfilter : acts.filter (fun c => c.parent_id == some a.id) = [] := by
        apply List.eq_nil_iff_forall_not_mem.mpr
        intro c hc
        have hcmem : c ∈ acts := List.mem_of_mem_filter hc
        have hcp : c.parent_id = some a.id := by
          have := List.of_mem_filter hc
          simpa using this
        have hchain' : parentChain (c :: a :: ch) := ⟨hcp, hchain⟩
        have hmem' : ∀ x ∈ c :: a :: ch, x ∈ acts := by
          intro x hx
          rcases List.mem_cons.mp hx with h | hx
          · subst h; exact hcmem
          rcases List.mem_cons.mp hx with h | hx
          · subst h; exact ha
          · exact hch x hx
        have hnodup := parentChain_nodup acts hnd (c :: a :: ch) hmem' hchain'
        have := length_le_of_nodup_subset hnodup hmem'
        simp only [List.length_cons] at this hlen
        omega
      rw [buildSubtree_of_no_children hfilter, buildSubtree_of_no_children hfilter]
  | succ n ih =>
      intro ch a ha hch hchain hlen f g hf hg
      obtain ⟨fp, rfl, hfp⟩ : ∃ fp, f = fp + 1 ∧ n ≤ fp := by
        cases f with
        | zero => omega
        | succ fp => exact ⟨fp, rfl, by omega⟩
      obtain ⟨gp, rfl, hgp⟩ : ∃ gp, g = gp + 1 ∧ n ≤ gp := by
        cases g with
        | zero => omega
        | succ gp => exact ⟨gp, rfl, by omega⟩
      rw [buildSubtree, buildSubtree]
      congr 1
      apply List.map_congr_left
      intro c hc
      have hcmem : c ∈ acts := List.mem_of_mem_filter hc
      have hcp : c.parent_id = some a.id := by
        have := List.of_mem_filter hc
        simpa using this
      apply ih (a :: ch) c hcmem
      · intro x hx
        rcases List.mem_cons.mp hx with h | hx
        · subst h; exact ha
        · exact hch x hx
      · exact ⟨hcp, hchain⟩
      · simp only [List.length_cons] at hlen ⊢
        omega
      · exact hfp
      · exact hgp

theorem buildTreeWithFuel_stable (acts : List ActivityRec)
    (hnd : (acts.map (fun a => a.id)).Nodup)
    (f : Nat) (hf : acts.length ≤ f) :
    buildTreeWithFuel acts f = build_activity_tree acts := by
  rw [buildTreeWithFuel_eq acts hnd f]
  rw [build_activity_tree_eq_buildForest acts hnd]
  unfold buildForest
  apply List.map_congr_left
  intro a ha
  have hamem : a ∈ acts := List.mem_of_mem_filter ha
  have hap : a.parent_id = none := by
    have := List.of_mem_filter ha
    simpa using this
  have hpos : 0 < acts.length := List.length_pos_of_mem hamem
  apply buildSubtree_fuel_stable acts hnd (acts.length - 1) [] a hamem
    (by intro x hx; exact absurd hx (List.not_mem_nil x)) hap
  · simp only [List.length_cons, List.length_nil]
    omega
  · omega
  · omega

/-! Structural facts about the declarative characterization, used to
settle the tree claims. -/

theorem buildSubtree_act (acts : List ActivityRec) (fuel : Nat) (a : ActivityRec) :
    (buildSubtree acts fuel a).act = a := by
  cases fuel with
  | zero => rfl
  | succ f => rfl

theorem exists_of_mem_allNodesForest {F : List ActivityNode} {m : ActivityNode}
    (h : m ∈ allNodesForest F) : ∃ n ∈ F, m ∈ allNodes n := by
  induction F with
  | nil => exact absurd h (List.not_mem_nil m)
  | cons n ns ih =>
      rw [allNodesForest] at h
      rcases List.mem_append.mp h with h | h
      · exact ⟨n, List.mem_cons_self n ns, h⟩
      · rcases ih h with ⟨n', hn', hm⟩
        exact ⟨n', List.mem_cons_of_mem n hn', hm⟩

theorem buildSubtree_nodes (acts : List ActivityRec) :
    ∀ fuel a, a ∈ acts → ∀ m ∈ allNodes (buildSubtree acts fuel a),
      m.act ∈ acts ∧ ∀ c ∈ m.children, c.act ∈ acts ∧ c.act.parent_id = some m.act.id := by
  intro fuel
  induction fuel with
  | zero =>
      intro a ha m hm
      rw [buildSubtree, allNodes] at hm
      rcases List.mem_cons.mp hm with h | h
      · subst h
        exact ⟨ha, fun c hc => absurd hc (List.not_mem_nil c)⟩
      · rw [allNodesForest] at h
        exact absurd h (List.not_mem_nil m)
  | succ fuel ih =>
      intro a ha m hm
      rw [buildSubtree, allNodes] at hm
      rcases List.mem_cons.mp hm with h | h
      · subst h
        refine ⟨ha, ?_⟩
        intro c hc
        have hc' : c ∈ (acts.filter (fun x => x.parent_id == some a.id)).map
            (buildSubtree acts fuel) := hc
        rcases List.mem_map.mp hc' with ⟨r, hr, hcr⟩
        have hrmem : r ∈ acts := List.mem_of_mem_filter hr
        have hrp : r.parent_id = some a.id := by
          have := List.of_mem_filter hr
          simpa using this
        subst hcr
        rw [buildSubtree_act]
        exact ⟨hrmem, hrp⟩
      · rcases exists_of_mem_allNodesForest h with ⟨n, hn, hmn⟩
        rcases List.mem_map.mp hn with ⟨r, hr, hnr⟩
        have hrmem : r ∈ acts := List.mem_of_mem_filter hr
        subst hnr
        exact ih r hrmem m hmn

theorem filter_children_nil_of_tight_chain (acts : List ActivityRec)
    (hnd : (acts.map (fun a => a.id)).Nodup)
    (ch : List ActivityRec) (a : ActivityRec) (ha : a ∈ acts)
    (hch : ∀ x ∈ ch, x ∈ acts) (hchain : parentChain (a :: ch))
    (hlen : acts.length ≤ (a :: ch).length) :
    acts.filter (fun c => c.parent_id == some a.id) = [] := by
  apply List.eq_nil_iff_forall_not_mem.mpr
  intro c hc
  have hcmem : c ∈ acts := List.mem_of_mem_filter hc
  have hcp : c.parent_id = some a.id := by
    have := List.of_mem_filter hc
    simpa using this
  have hchain' : parentChain (c :: a :: ch) := ⟨hcp, hchain⟩
  have hmem' : ∀ x ∈ c :: a :: ch, x ∈ acts := by
    intro x hx
    rcases List.mem_cons.mp hx with h | hx
    · subst h; exact hcmem
    rcases List.mem_cons.mp hx with h | hx
    · subst h; exact ha
    · exact hch x hx
  have hnodup := parentChain_nodup acts hnd (c :: a :: ch) hmem' hchain'
  have := length_le_of_nodup_subset hnodup hmem'
  simp only [List.length_cons] at this hlen
  omega

theorem buildSubtree_children_exact (acts : List ActivityRec)
    (hnd : (acts.map (fun a => a.id)).Nodup) :
    ∀ n (ch : List ActivityRec) (a : ActivityRec), a ∈ acts →
      (∀ x ∈ ch, x ∈ acts) → parentChain (a :: ch) →
      acts.length ≤ (a :: ch).length + n →
      ∀ fuel, n ≤ fuel → ∀ m ∈ allNodes (buildSubtree acts fuel a),
        m.children.map ActivityNode.act
          = acts.filter (fun c => c.parent_id == some m.act.id) := by
  intro n
  induction n with
  | zero =>
      intro ch a ha hch hchain hlen fuel _ m hm
      have hlen' : acts.length ≤ (a :: ch).length := by
        simp only [List.length_cons] at hlen ⊢
        omega
      have hfilter := filter_children_nil_of_tight_chain acts hnd ch a ha hch hchain hlen'
      rw [buildSubtree_of_no_children hfilter, allNodes] at hm
      rcases List.mem_cons.mp hm with h | h
      · subst h
        simp only [ActivityNode.children, ActivityNode.act, List.map_nil]
        exact hfilter.symm
      · rw [allNodesForest] at h
        exact absurd h (List.not_mem_nil m)
  | succ n ih =>
      intro ch a ha hch hchain hlen fuel hf m hm
      obtain ⟨f, rfl, hfn⟩ : ∃ f, fuel = f + 1 ∧ n ≤ f := by
        cases fuel with
        | zero => omega
        | succ f => exact ⟨f, rfl, by omega⟩
      rw [buildSubtree, allNodes] at hm
      rcases List.mem_cons.mp hm with h | h
      · subst h
        simp only [ActivityNode.children, ActivityNode.act]
        rw [List.map_map]
        calc (acts.filter (fun c => c.parent_id == some a.id)).map
              (ActivityNode.act ∘ buildSubtree acts f)
            = (acts.filter (fun c => c.parent_id == some a.id)).map id :=
              List.map_congr_left (fun c _ => buildSubtree_act acts f c)
          _ = acts.filter (fun c => c.parent_id == some a.id) := List.map_id _
      · rcases exists_of_mem_allNodesForest h with ⟨nn, hn, hmn⟩
        rcases List.mem_map.mp hn with ⟨c, hcfil, hnc⟩
        have hcmem : c ∈ acts := List.mem_of_mem_filter hcfil
        have hcp : c.parent_id = some a.id := by
          have := List.of_mem_filter hcfil
          simpa using this
        subst hnc
        refine ih (a :: ch) c hcmem ?_ ⟨hcp, hchain⟩ ?_ f hfn m hmn
        · intro x hx
          rcases List.mem_cons.mp hx with h | hx
          · subst h; exact ha
          · exact hch x hx
        · simp only [List.length_cons] at hlen ⊢
          omega

/-- C1 counterexample: on the one-record input whose `parent_id`
references an id absent from the input set, the record satisfies the
claimed root condition, yet `build_activity_tree` returns no root at all
(the orphan is silently dropped, not re-rooted). -/
theorem C1_counterexample :
    orphanRec ∈ [orphanRec] ∧ specClaimedRoot [orphanRec] orphanRec ∧
    ¬ ∃ n ∈ build_activity_tree [orphanRec], n.act = orphanRec := by
  refine ⟨List.mem_cons_self _ _, Or.inr ?_, ?_⟩
  · intro p hp b hb
    have hp1 : p = 1 := by
      have : (some 1 : Option Nat) = some p := hp
      simpa using this.symm
    have hb1 : b = orphanRec := by simpa using hb
    subst hp1; subst hb1
    simp [orphanRec]
  · rintro ⟨n, hn, -⟩
    have hempty : build_activity_tree [orphanRec] = [] := by rfl
    rw [hempty] at hn
    exact absurd hn (List.not_mem_nil n)

/-- C1 (amended): on any input with distinct ids, the roots returned by
`build_activity_tree` are exactly the input records whose `parent_id` is
absent, in input order — a record whose `parent_id` references an id not
present in the input set is silently dropped — and every node of the
returned forest carries a record from the input set, its children being
exactly the input records (in input order) whose `parent_id` is that
node's id. -/
theorem C1_roots_and_children (acts : List ActivityRec)
    (hnd : (acts.map (fun a => a.id)).Nodup) :
    (build_activity_tree acts).map ActivityNode.act
        = acts.filter (fun a => a.parent_id == none) ∧
    ∀ m ∈ allNodesForest (build_activity_tree acts),
      m.act ∈ acts ∧
      m.children.map ActivityNode.act
        = acts.filter (fun c => c.parent_id == some m.act.id) := by
  rw [build_activity_tree_eq_buildForest acts hnd]
  constructor
  · unfold buildForest
    rw [List.map_map]
    calc (acts.filter (fun a => a.parent_id == none)).map
          (ActivityNode.act ∘ buildSubtree acts acts.length)
        = (acts.filter (fun a => a.parent_id == none)).map id :=
          List.map_congr_left (fun a _ => buildSubtree_act acts acts.length a)
      _ = acts.filter (fun a => a.parent_id == none) := List.map_id _
  · intro m hm
    rcases exists_of_mem_allNodesForest hm with ⟨n, hn, hmn⟩
    unfold buildForest at hn
    rcases List.mem_map.mp hn with ⟨r, hr, hnr⟩
    have hrmem : r ∈ acts := List.mem_of_mem_filter hr
    have hrp : r.parent_id = none := by
      have := List.of_mem_filter hr
      simpa using this
    subst hnr
    refine ⟨(buildSubtree_nodes acts acts.length r hrmem m hmn).1, ?_⟩
    have hpos : 0 < acts.length := List.length_pos_of_mem hrmem
    refine buildSubtree_children_exact acts hnd (acts.length - 1) [] r hrmem
      (fun x hx => absurd hx (List.not_mem_nil x)) hrp ?_ acts.length ?_ m hmn
    · simp only [List.length_cons, List.length_nil]
      omega
    · omega

/-- C1 witness: the amended claim applied to a concrete input holding a
root, a child, and an orphan whose parent id 7 is absent. -/
theorem C1_witness :
    (([⟨1, "Food", none, 1⟩, ⟨2, "Meat", some 1, 2⟩,
        ⟨3, "lost", some 7, 2⟩] : List ActivityRec).map (fun a => a.id)).Nodup ∧
    (((build_activity_tree [⟨1, "Food", none, 1⟩, ⟨2, "Meat", some 1, 2⟩,
        ⟨3, "lost", some 7, 2⟩]).map ActivityNode.act
        = ([⟨1, "Food", none, 1⟩, ⟨2, "Meat", some 1, 2⟩,
            ⟨3, "lost", some 7, 2⟩] : List ActivityRec).filter
            (fun a => a.parent_id == none)) ∧
      ∀ m ∈ allNodesForest (build_activity_tree [⟨1, "Food", none, 1⟩,
          ⟨2, "Meat", some 1, 2⟩, ⟨3, "lost", some 7, 2⟩]),
        m.act ∈ ([⟨1, "Food", none, 1⟩, ⟨2, "Meat", some 1, 2⟩,
            ⟨3, "lost", some 7, 2⟩] : List ActivityRec) ∧
        m.children.map ActivityNode.act
          = ([⟨1, "Food", none, 1⟩, ⟨2, "Meat", some 1, 2⟩,
              ⟨3, "lost", some 7, 2⟩] : List ActivityRec).filter
              (fun c => c.parent_id == some m.act.id)) :=
  ⟨by decide, C1_roots_and_children _ (by decide)⟩

/-- C8: `build_activity_tree` is a pure Lean function, so two calls on
the same input are definitionally the same forest, and by `C1`'s
characterization children are appended in the input sequence's order;
the substance proved here is the round trip: flattening a previously
built forest (parent-consistent roots-have-no-parent structure with
distinct ids, which every forest built from primary-key rows satisfies)
and rebuilding reproduces the very same structure. -/
theorem C8_build_tree_roundtrip (F : List ActivityNode)
    (hwf : wfForest none F = true)
    (hnd : ((flattenForest F).map (fun a => a.id)).Nodup) :
    build_activity_tree (flattenForest F) = F :=
  build_flatten_roundtrip F hwf hnd

/-- C8 witness: the round trip applied to `sampleForest`. -/
theorem C8_witness :
    wfForest none sampleForest = true ∧
    ((flattenForest sampleForest).map (fun a => a.id)).Nodup ∧
    build_activity_tree (flattenForest sampleForest) = sampleForest :=
  ⟨by decide, by decide, C8_build_tree_roundtrip sampleForest (by decide) (by decide)⟩

/-- C9: the construction is total on every finite input, cycles and
self-references in the `parent_id` graph included: the root list is the
result of a plain fold over the input (first conjunct, no hypothesis on
the shape of the parent graph), and on distinct-id inputs every
materialization fuel of at least the input length produces the same
forest, because a cyclic parent chain is never reachable from the
returned roots — the recursion of the embedding's materialization is
bounded and the result is fuel-independent from `acts.length` on. -/
theorem C9_build_tree_total (acts : List ActivityRec)
    (hnd : (acts.map (fun a => a.id)).Nodup) (fuel : Nat)
    (hf : acts.length ≤ fuel) :
    (treePass (activityDict acts) acts).rootIds
        = (acts.filter (fun a => a.parent_id == none)).map (fun a => a.id) ∧
    buildTreeWithFuel acts fuel = build_activity_tree acts :=
  ⟨treePass_rootIds _ acts, buildTreeWithFuel_stable acts hnd fuel hf⟩

/-- C9 witness: totality and fuel-independence on the cyclic input. -/
theorem C9_witness :
    (cyclicActs.map (fun a => a.id)).Nodup ∧
    cyclicActs.length ≤ 10 ∧
    ((treePass (activityDict cyclicActs) cyclicActs).rootIds
        = (cyclicActs.filter (fun a => a.parent_id == none)).map (fun a => a.id) ∧
      buildTreeWithFuel cyclicActs 10 = build_activity_tree cyclicActs) :=
  ⟨by decide, by decide, C9_build_tree_total cyclicActs (by decide) 10 (by decide)⟩

/-- C2: the endpoint does find the descendants of activity 2 (second
conjunct: the recursive expansion returns the Beef record), and returns
404 on a missing id (third conjunct), but the response for the non-root
activity 2 carries an empty children list (first conjunct): the node
passed to `build_activity_tree` keeps its `parent_id` referencing the
out-of-set parent 1, so the builder drops it from the roots, the tree
comes back empty, and the fallback strips the collected subtree — the
claimed recursively nested descendants are lost. -/
theorem C2_subtree_lost :
    get_activity c2Db 2 = .ok (.mk ⟨2, "Meat", some 1, 2⟩ []) ∧
    get_all_descendants c2Db c2Db.length 2 = [⟨3, "Beef", some 2, 3⟩] ∧
    get_activity c2Db 5 = .error .notFound :=
  ⟨rfl, rfl, rfl⟩

theorem gad_self_mem (db : List ActivityRec) (fuel x : Nat) :
    x ∈ get_activity_descendants db fuel x := by
  cases fuel with
  | zero => rw [get_activity_descendants]; exact List.mem_singleton.mpr rfl
  | succ f => rw [get_activity_descendants]; exact List.mem_cons_self _ _

theorem gad_complete (db : List ActivityRec) :
    ∀ {x d k : Nat}, DescendantWithin db x d k → ∀ fuel, k ≤ fuel →
      d ∈ get_activity_descendants db fuel x := by
  intro x d k h
  induction h with
  | refl x => intro fuel _; exact gad_self_mem db fuel x
  | step x d k c hc hp _ ih =>
      intro fuel hk
      obtain ⟨f, rfl⟩ : ∃ f, fuel = f + 1 := by
        cases fuel with
        | zero => omega
        | succ f => exact ⟨f, rfl⟩
      rw [get_activity_descendants]
      apply List.mem_cons_of_mem
      apply List.mem_flatMap.mpr
      refine ⟨c, ?_, ih f (by omega)⟩
      exact List.mem_filter.mpr ⟨hc, by simp [hp]⟩

/-- C3: the descendant expansion always contains the queried id itself;
on a leaf (no row has it as parent) the result is exactly the singleton;
when some row is a child of the queried id (and no row is its own parent,
as in forest data) the result strictly exceeds the singleton; and every
transitively reachable descendant is returned, the expansion walking
until no further children are found (any reachability depth within the
fuel bound, which is not fixed at the depth-3 invariant). -/
theorem C3_descendant_expansion (db : List ActivityRec) (x : Nat) (fuel : Nat) :
    x ∈ get_activity_descendants db fuel x ∧
    (db.filter (fun a => a.parent_id == some x) = [] →
      get_activity_descendants db fuel x = [x]) ∧
    ((∀ a ∈ db, a.parent_id ≠ some a.id) → 1 ≤ fuel →
      ∀ c ∈ db, c.parent_id = some x →
        ∃ y ∈ get_activity_descendants db fuel x, y ≠ x) ∧
    (∀ d k, DescendantWithin db x d k → k ≤ fuel →
      d ∈ get_activity_descendants db fuel x) := by
  refine ⟨gad_self_mem db fuel x, ?_, ?_, ?_⟩
  · intro hleaf
    cases fuel with
    | zero => rfl
    | succ f => rw [get_activity_descendants, hleaf]; rfl
  · intro hforest hfuel c hc hcp
    obtain ⟨f, rfl⟩ : ∃ f, fuel = f + 1 := by
      cases fuel with
      | zero => omega
      | succ f => exact ⟨f, rfl⟩
    refine ⟨c.id, ?_, ?_⟩
    · rw [get_activity_descendants]
      apply List.mem_cons_of_mem
      apply List.mem_flatMap.mpr
      exact ⟨c, List.mem_filter.mpr ⟨hc, by simp [hcp]⟩, gad_self_mem db f c.id⟩
    · intro heq
      exact hforest c hc (heq ▸ hcp)
  · intro d k h hk
    exact gad_complete db h fuel hk

/-- C3 witness: leaf exactness at Beef (id 3), strictness at Food
(id 1) through its child Meat, and reachability of Beef from Food in two
steps, all on the concrete three-level chain. -/
theorem C3_witness :
    (3 : Nat) ∈ get_activity_descendants c2Db 3 3 ∧
    get_activity_descendants c2Db 3 3 = [3] ∧
    (∃ y ∈ get_activity_descendants c2Db 3 1, y ≠ 1) ∧
    (3 : Nat) ∈ get_activity_descendants c2Db 3 1 := by
  refine ⟨(C3_descendant_expansion c2Db 3 3).1,
    (C3_descendant_expansion c2Db 3 3).2.1 (by decide), ?_, ?_⟩
  · exact (C3_descendant_expansion c2Db 1 3).2.2.1 (by decide) (by decide)
      ⟨2, "Meat", some 1, 2⟩ (by decide) rfl
  · refine (C3_descendant_expansion c2Db 1 3).2.2.2 3 2 ?_ (by decide)
    refine DescendantWithin.step 1 3 1 ⟨2, "Meat", some 1, 2⟩ (by decide) rfl ?_
    exact DescendantWithin.step 2 3 0 ⟨3, "Beef", some 2, 3⟩ (by decide) rfl
      (DescendantWithin.refl 3)

theorem commit_ok_level {st : ActivityDb} {maxDepth : Nat} {name : String}
    {pid : Option Nat} {level : Nat} {st' : ActivityDb} {act : ActivityRec}
    (h : create_activity_commit st maxDepth name pid level = (st', .ok act)) :
    act.level = level := by
  unfold create_activity_commit at h
  split at h
  · exact absurd (congrArg Prod.snd h) (by simp)
  · split at h
    · exact absurd (congrArg Prod.snd h) (by simp)
    · have hsnd := congrArg Prod.snd h
      simp only at hsnd
      have : (⟨st.nextId, name, pid, level⟩ : ActivityRec) = act := Except.ok.inj hsnd
      rw [← this]

theorem commit_error_state {st : ActivityDb} {maxDepth : Nat} {name : String}
    {pid : Option Nat} {level : Nat} {e : ApiError}
    (h : (create_activity_commit st maxDepth name pid level).2 = .error e) :
    (create_activity_commit st maxDepth name pid level).1 = st := by
  unfold create_activity_commit at h ⊢
  by_cases h1 : maxDepth < level
  · rw [if_pos h1]
  · rw [if_neg h1] at h ⊢
    by_cases h2 : (st.rows.any fun b => b.name == name) = true
    · rw [if_pos h2]
    · rw [if_neg h2] at h
      exact absurd h (by simp)

theorem commit_depth_exceeded (st : ActivityDb) (maxDepth : Nat) (name : String)
    (pid : Option Nat) (level : Nat) (h : maxDepth < level) :
    create_activity_commit st maxDepth name pid level = (st, .error .validationError) := by
  unfold create_activity_commit
  rw [if_pos h]

/-- C4: with a present parent id whose row is absent the request fails
404; when creation succeeds under a parent of level L the created row has
level L + 1, and level 1 with no parent; when the computed level exceeds
the configured maximum depth the request fails 400 with the table
unchanged; and every failing request (404, 400 or integrity rollback)
leaves the table state exactly as it was, nothing persisted. -/
theorem C4_create_activity (st : ActivityDb) (maxDepth : Nat) (name : String) :
    (∀ pid, st.rows.find? (fun a => a.id == pid) = none →
      create_activity st maxDepth name (some pid) = (st, .error .notFound)) ∧
    (∀ pid parent st' act,
      st.rows.find? (fun a => a.id == pid) = some parent →
      create_activity st maxDepth name (some pid) = (st', .ok act) →
      act.level = parent.level + 1) ∧
    (∀ st' act, create_activity st maxDepth name none = (st', .ok act) →
      act.level = 1) ∧
    (∀ pid parent, st.rows.find? (fun a => a.id == pid) = some parent →
      maxDepth < parent.level + 1 →
      create_activity st maxDepth name (some pid) = (st, .error .validationError)) ∧
    (maxDepth < 1 →
      create_activity st maxDepth name none = (st, .error .validationError)) ∧
    (∀ pid e, (create_activity st maxDepth name pid).2 = .error e →
      (create_activity st maxDepth name pid).1 = st) := by
  refine ⟨?_, ?_, ?_, ?_, ?_, ?_⟩
  · intro pid hfind
    simp only [create_activity, hfind]
  · intro pid parent st' act hfind h
    simp only [create_activity, hfind] at h
    exact commit_ok_level h
  · intro st' act h
    simp only [create_activity] at h
    exact commit_ok_level h
  · intro pid parent hfind hlt
    simp only [create_activity, hfind]
    exact commit_depth_exceeded st maxDepth name (some pid) (parent.level + 1) hlt
  · intro hlt
    simp only [create_activity]
    exact commit_depth_exceeded st maxDepth name none 1 hlt
  · intro pid e h
    cases pid with
    | none =>
        simp only [create_activity] at h ⊢
        exact commit_error_state h
    | some p =>
        simp only [create_activity] at h ⊢
        cases hfind : st.rows.find? (fun a => a.id == p) with
        | none => rfl
        | some parent =>
            rw [hfind] at h
            exact commit_error_state h

/-- C4 witness: under the default maximum depth 3, a child of Beef
(level 3) is rejected with 400 and the table is unchanged, a missing
parent id gives 404, and creating a child of Food succeeds at level 2. -/
theorem C4_witness :
    c4Db.rows.find? (fun a => a.id == 3) = some ⟨3, "Beef", some 2, 3⟩ ∧
    MAX_ACTIVITY_DEPTH < 3 + 1 ∧
    create_activity c4Db MAX_ACTIVITY_DEPTH "Premium Beef" (some 3)
        = (c4Db, .error .validationError) ∧
    c4Db.rows.find? (fun a => a.id == 9) = none ∧
    create_activity c4Db MAX_ACTIVITY_DEPTH "Pets" (some 9)
        = (c4Db, .error .notFound) ∧
    (create_activity c4Db MAX_ACTIVITY_DEPTH "Dairy" (some 1)).2
        = .ok ⟨4, "Dairy", some 1, 2⟩ := by
  refine ⟨by decide, by decide, ?_, by decide, ?_, rfl⟩
  · exact (C4_create_activity c4Db MAX_ACTIVITY_DEPTH "Premium Beef").2.2.2.1
      3 ⟨3, "Beef", some 2, 3⟩ (by decide) (by decide)
  · exact (C4_create_activity c4Db MAX_ACTIVITY_DEPTH "Pets").1 9 (by decide)

theorem valid_radius_pos {s : LocationSearch} (hv : s.valid = true) {r : ℚ}
    (hr : s.radius_meters = some r) : 0 < r := by
  unfold LocationSearch.valid at hv
  rw [hr] at hv
  simp only [Bool.and_eq_true, Option.all_some, decide_eq_true_eq] at hv
  exact hv.1.1.1.1.1.1.2

/-- C5: exactly one search mode is resolved, first match wins — a present
(schema-valid, hence positive) radius always selects radius mode, the
bounding-box fields being ignored; with no radius and all four bounds
present, bounding-box mode is selected; with no radius and any bound
missing the request fails 400, before any query would run. -/
theorem C5_mode_selection (s : LocationSearch) (hv : s.valid = true) :
    (∀ r, s.radius_meters = some r → resolve_search_mode s = .ok (.radius r)) ∧
    (s.radius_meters = none →
      ∀ minLat maxLat minLon maxLon,
        s.min_latitude = some minLat → s.max_latitude = some maxLat →
        s.min_longitude = some minLon → s.max_longitude = some maxLon →
        resolve_search_mode s = .ok (.bbox minLon minLat maxLon maxLat)) ∧
    (s.radius_meters = none →
      (s.min_latitude = none ∨ s.max_latitude = none ∨ s.min_longitude = none ∨
        s.max_longitude = none) →
      resolve_search_mode s = .error .validationError) := by
  refine ⟨?_, ?_, ?_⟩
  · intro r hr
    have hpos : 0 < r := valid_radius_pos hv hr
    simp only [resolve_search_mode, hr]
    rw [if_neg (ne_of_gt hpos)]
  · intro hr0 minLat maxLat minLon maxLon h1 h2 h3 h4
    simp only [resolve_search_mode, hr0, resolve_bbox, h1, h2, h3, h4]
  · intro hr0 hmiss
    simp only [resolve_search_mode, hr0]
    cases hml : s.min_latitude <;> cases hxl : s.max_latitude <;>
      cases hmo : s.min_longitude <;> cases hxo : s.max_longitude <;>
      simp_all [resolve_bbox]

/-- C5 witness: the three resolutions on concrete schema-valid
requests. -/
theorem C5_witness :
    radiusSearch.valid = true ∧
    resolve_search_mode radiusSearch = .ok (.radius 500) ∧
    bboxSearch.valid = true ∧
    resolve_search_mode bboxSearch = .ok (.bbox 10 40 20 50) ∧
    partialSearch.valid = true ∧
    resolve_search_mode partialSearch = .error .validationError :=
  ⟨by decide,
    (C5_mode_selection radiusSearch (by decide)).1 500 rfl,
    by decide,
    (C5_mode_selection bboxSearch (by decide)).2.1 rfl 40 50 10 20 rfl rfl rfl rfl,
    by decide,
    (C5_mode_selection partialSearch (by decide)).2.2 rfl (Or.inr (Or.inl rfl))⟩

/-- C10: the schema accepts a request with all four bounds present and
the latitude bounds inverted — there is no cross-field ordering check —
and mode selection picks bounding-box mode without raising any
validation error. -/
theorem C10_inverted_bbox_accepted :
    invertedSearch.valid = true ∧
    invertedSearch.min_latitude = some 50 ∧
    invertedSearch.max_latitude = some 40 ∧
    (40 : ℚ) < 50 ∧
    invertedSearch.radius_meters = none ∧
    resolve_search_mode invertedSearch = .ok (.bbox 10 50 20 40) :=
  ⟨by decide, rfl, rfl, by norm_num, rfl, rfl⟩

/-- C6: for both the by-building listing and the location search, the
returned total is the number of all filtered matches — an expression free
of the limit and the offset — while the returned page is the offset/limit
cut of the filtered matches and never exceeds the limit in length. -/
theorem C6_total_before_pagination (buildings : List BuildingRec)
    (orgs : List OrganizationRec) :
    (∀ building_id limit offset b page total,
      buildings.find? (fun bb => bb.id == building_id) = some b →
      get_organizations_by_building buildings orgs building_id limit offset
          = .ok (page, total) →
      total = (orgs.filter (fun o => o.building_id == building_id)).length ∧
      page = ((orgs.filter (fun o => o.building_id == building_id)).drop offset).take limit ∧
      page.length ≤ limit) ∧
    (∀ spatial s mode page total,
      resolve_search_mode s = .ok mode →
      search_organizations_by_location spatial orgs s = .ok (page, total) →
      total = (orgs.filter (spatial mode)).length ∧
      page = ((orgs.filter (spatial mode)).drop s.offset).take s.limit ∧
      page.length ≤ s.limit) := by
  constructor
  · intro building_id limit offset b page total hfind h
    simp only [get_organizations_by_building, hfind] at h
    have hpair := Except.ok.inj h
    have hpage : page = ((orgs.filter (fun o => o.building_id == building_id)).drop offset).take limit :=
      (congrArg Prod.fst hpair).symm
    have htotal : total = (orgs.filter (fun o => o.building_id == building_id)).length :=
      (congrArg Prod.snd hpair).symm
    refine ⟨htotal, hpage, ?_⟩
    rw [hpage]
    exact List.length_take_le _ _
  · intro spatial s mode page total hmode h
    simp only [search_organizations_by_location, hmode] at h
    have hpair := Except.ok.inj h
    have hpage : page = ((orgs.filter (spatial mode)).drop s.offset).take s.limit :=
      (congrArg Prod.fst hpair).symm
    have htotal : total = (orgs.filter (spatial mode)).length :=
      (congrArg Prod.snd hpair).symm
    refine ⟨htotal, hpage, ?_⟩
    rw [hpage]
    exact List.length_take_le _ _

/-- C6 witness: with limit 1 and offset 1 the page holds the single
second match while the total still counts both matches. -/
theorem C6_witness :
    c6Buildings.find? (fun bb => bb.id == 1) = some ⟨1, "Main St 1"⟩ ∧
    get_organizations_by_building c6Buildings c6Orgs 1 1 1
        = .ok ([⟨2, "B", 1⟩], 2) ∧
    (2 = (c6Orgs.filter (fun o => o.building_id == 1)).length ∧
      [(⟨2, "B", 1⟩ : OrganizationRec)]
          = ((c6Orgs.filter (fun o => o.building_id == 1)).drop 1).take 1 ∧
      [(⟨2, "B", 1⟩ : OrganizationRec)].length ≤ 1) :=
  ⟨rfl, rfl,
    (C6_total_before_pagination c6Buildings c6Orgs).1 1 1 1 ⟨1, "Main St 1"⟩
      [⟨2, "B", 1⟩] 2 rfl rfl⟩

theorem found_length_lt (rows : List ActivityRec) (ids : List Nat)
    (hnd : (rows.map (fun a => a.id)).Nodup) (i : Nat) (hi : i ∈ ids)
    (hmiss : ∀ a ∈ rows, a.id ≠ i) :
    (rows.filter (fun a => ids.contains a.id)).length < ids.length := by
  have hfnd : ((rows.filter (fun a => ids.contains a.id)).map (fun a => a.id)).Nodup :=
    List.Nodup.sublist ((List.filter_sublist rows).map (fun a => a.id)) hnd
  have hsubset : ∀ x ∈ (rows.filter (fun a => ids.contains a.id)).map (fun a => a.id),
      x ∈ ids.toFinset.erase i := by
    intro x hx
    rcases List.mem_map.mp hx with ⟨a, ha, hax⟩
    have hamem : a ∈ rows := List.mem_of_mem_filter ha
    have haid : a.id ∈ ids := by
      have := List.of_mem_filter ha
      simpa using this
    subst hax
    exact Finset.mem_erase.mpr ⟨hmiss a hamem, List.mem_toFinset.mpr haid⟩
  have h2 : ((rows.filter (fun a => ids.contains a.id)).map (fun a => a.id)).length
      = ((rows.filter (fun a => ids.contains a.id)).map (fun a => a.id)).toFinset.card :=
    (List.toFinset_card_of_nodup hfnd).symm
  have h3 : ((rows.filter (fun a => ids.contains a.id)).map (fun a => a.id)).toFinset
      ⊆ ids.toFinset.erase i := by
    intro x hx
    exact hsubset x (List.mem_toFinset.mp hx)
  have h4 := Finset.card_le_card h3
  have h5 : (ids.toFinset.erase i).card = ids.toFinset.card - 1 :=
    Finset.card_erase_of_mem (List.mem_toFinset.mpr hi)
  have h6 : ids.toFinset.card ≤ ids.length := List.toFinset_card_le ids
  have h7 : 1 ≤ ids.toFinset.card :=
    Finset.card_pos.mpr ⟨i, List.mem_toFinset.mpr hi⟩
  have h8 : (rows.filter (fun a => ids.contains a.id)).length
      = ((rows.filter (fun a => ids.contains a.id)).map (fun a => a.id)).length :=
    (List.length_map _ _).symm
  omega

/-- C7: creation of an organization is all-or-nothing — when the
building id resolves to no building, or any requested activity id exists
on no activity row (ids being primary keys), the request fails 404 and
the whole store is returned unchanged: no organization row, no phone
row, and no activity link from the request exists afterwards. -/
theorem C7_create_organization_atomic (db : Db) (req : OrganizationCreate)
    (hnd : (db.activities.map (fun a => a.id)).Nodup) :
    (db.buildings.find? (fun b => b.id == req.building_id) = none →
      create_organization db req = (db, .error .notFound)) ∧
    (∀ i ∈ req.activity_ids, (∀ a ∈ db.activities, a.id ≠ i) →
      create_organization db req = (db, .error .notFound)) := by
  constructor
  · intro hfind
    simp only [create_organization, hfind]
  · intro i hi hmiss
    have hlt := found_length_lt db.activities req.activity_ids hnd i hi hmiss
    simp only [create_organization]
    cases hfind : db.buildings.find? (fun b => b.id == req.building_id) with
    | none => rfl
    | some b =>
        have hne : req.activity_ids.isEmpty = false := by
          cases hids : req.activity_ids with
          | nil => rw [hids] at hi; exact absurd hi (List.not_mem_nil i)
          | cons y ys => rfl
        have hlen : (db.activities.filter (fun a => req.activity_ids.contains a.id)).length
            ≠ req.activity_ids.length := Nat.ne_of_lt hlt
        have hcond : (!req.activity_ids.isEmpty &&
            (db.activities.filter (fun a => req.activity_ids.contains a.id)).length
              != req.activity_ids.length) = true := by
          rw [hne, Bool.not_false, Bool.true_and]
          exact bne_iff_ne.mpr hlen
        rw [if_pos hcond]

/-- C7 witness: the request with `activity_ids = [1, 2, 999]` fails
entirely and the store is unchanged. -/
theorem C7_witness :
    (c7Db.activities.map (fun a => a.id)).Nodup ∧
    999 ∈ c7Req.activity_ids ∧
    (∀ a ∈ c7Db.activities, a.id ≠ 999) ∧
    create_organization c7Db c7Req = (c7Db, .error .notFound) :=
  ⟨by decide, by decide, by decide,
    (C7_create_organization_atomic c7Db c7Req (by decide)).2 999 (by decide) (by decide)⟩
